import Mathlib

/-!
Shallow embedding of `src/Week 2/model2_1.py` (muon spin rotation model).

Floating-point numbers are modelled as real numbers, complex ndarrays as
`Matrix (Fin n) (Fin m) ℂ`.  The numpy library calls that the source makes
(`eigh`, `kron`, `@`, `np.abs`, `np.round`, `np.cos`) are modelled by their
mathematical meaning; in particular the output of `numpy.linalg.eigh` is not
computable inside the embedding, so the constructor `Model.init` receives the
eigenvalue vector and eigenvector matrix produced by `eigh` as parameters and
computes the remaining stored fields exactly as the source constructor does.
-/

noncomputable section

open Matrix

/-- The float `scipy.constants.hbar` (imported at line 3 of the source). -/
def hbar : ℝ := 1.0545718176461565e-34

/-- The float `scipy.constants.mu_0` (imported at line 3 of the source). -/
def mu_0 : ℝ := 1.25663706212e-6

/-- Source line 15. -/
def FLUORINE_19_GYROMAGNETIC_RATIO : ℝ := 251.662e6

/-- Source line 16. -/
def MUON_GYROMAGNETIC_RATIO_OVER_2_PI : ℝ := 136e6

/-- Source line 6: `adj(a) = a.conj().T`. -/
def adj {m n : ℕ} (a : Matrix (Fin m) (Fin n) ℂ) : Matrix (Fin n) (Fin m) ℂ := aᴴ

/-- The operation `np.kron` on `Fin`-indexed complex matrices:
`np.kron(A, B)[i, j] = A[i // c, j // d] * B[i % c, j % d]` for `B` of shape `c × d`. -/
def kronF {a b c d : ℕ} (A : Matrix (Fin a) (Fin b) ℂ) (B : Matrix (Fin c) (Fin d) ℂ) :
    Matrix (Fin (a * c)) (Fin (b * d)) ℂ :=
  fun i j =>
    have hc : 0 < c := by
      rcases Nat.eq_zero_or_pos c with h | h
      · exact absurd i.isLt (by simp [h])
      · exact h
    have hd : 0 < d := by
      rcases Nat.eq_zero_or_pos d with h | h
      · exact absurd j.isLt (by simp [h])
      · exact h
    A ⟨i.val / c, (Nat.div_lt_iff_lt_mul hc).mpr i.isLt⟩
        ⟨j.val / d, (Nat.div_lt_iff_lt_mul hd).mpr j.isLt⟩ *
      B ⟨i.val % c, Nat.mod_lt _ hc⟩ ⟨j.val % d, Nat.mod_lt _ hd⟩

/-- Reindexing a `Fin`-indexed matrix along equalities of its dimensions. -/
def mcast {a b c d : ℕ} (hac : a = c) (hbd : b = d) (A : Matrix (Fin a) (Fin b) ℂ) :
    Matrix (Fin c) (Fin d) ℂ :=
  fun i j => A (Fin.cast hac.symm i) (Fin.cast hbd.symm j)

/-- Source line 18: `I = np.eye(2)`. -/
def I : Matrix (Fin 2) (Fin 2) ℂ := !![1, 0; 0, 1]

/-- Source lines 19–22. -/
def sigma_x : Matrix (Fin 2) (Fin 2) ℂ := !![0, 1; 1, 0]

/-- Source lines 23–26. -/
def sigma_z : Matrix (Fin 2) (Fin 2) ℂ := !![1, 0; 0, -1]

/-- Source lines 27–40: `S = (hbar/2) * [σx, σy, σz]`. -/
def S : Fin 3 → Matrix (Fin 2) (Fin 2) ℂ := fun i =>
  ((hbar / 2 : ℝ) : ℂ) •
    ![!![0, 1; 1, 0], !![0, -Complex.I; Complex.I, 0], !![1, 0; 0, -1]] i

/-- Source lines 9–13 applied as `tp(X, *[I]*k)`: the left fold
`kron(...kron(kron(X, I), I)..., I)` with `k` identity factors, as used by the
`Model` constructor at lines 46–47. -/
def tp (X : Matrix (Fin 2) (Fin 2) ℂ) : (k : ℕ) → Matrix (Fin (2 ^ (k + 1))) (Fin (2 ^ (k + 1))) ℂ
  | 0 => X
  | k + 1 => mcast (pow_succ 2 (k + 1)).symm (pow_succ 2 (k + 1)).symm (kronF (tp X k) I)

/-- Source lines 160–163 use the three-factor form `tp(A, B, C)`. -/
def tp3 (A B Cm : Matrix (Fin 2) (Fin 2) ℂ) : Matrix (Fin 8) (Fin 8) ℂ :=
  kronF (kronF A B) Cm

/-- Source lines 144–149: `DISTANCE` and the coupling constant `C`. -/
def DISTANCE : ℝ := 2.34e-10 / 2

/-- Source lines 145–149. -/
def C : ℝ :=
  mu_0 * FLUORINE_19_GYROMAGNETIC_RATIO * MUON_GYROMAGNETIC_RATIO_OVER_2_PI /
    (2 * DISTANCE ^ 3)

/-- Source lines 160–163: the Hamiltonian built by the builder formula. -/
def H : Matrix (Fin 8) (Fin 8) ℂ :=
  (C : ℂ) •
    ((∑ i : Fin 3, tp3 (S i) (S i) I) - (3 : ℂ) • tp3 (S 2) (S 2) I
      + (∑ i : Fin 3, tp3 (S i) I (S i)) - (3 : ℂ) • tp3 (S 2) I (S 2))

/-- The model state stored by `Model.__init__` (source lines 43–49); the
particle count is `k + 1` (the constructor is only reachable with a particle
count of at least 1: with particle count 0 the Python expression `[I]*(-1)`
is the empty list, `tp(sigma_x)` is 2×2 and the `@` products fail on any
`2^0`-dimensional Hamiltonian). -/
structure Model (k : ℕ) where
  energies : Fin (2 ^ (k + 1)) → ℝ
  M : Matrix (Fin (2 ^ (k + 1))) (Fin (2 ^ (k + 1))) ℂ
  transition_amplitude_matrix : Matrix (Fin (2 ^ (k + 1))) (Fin (2 ^ (k + 1))) ℝ
  rounded_frequencies : Fin (2 ^ (k + 1)) → ℤ

/-- The constructor `Model.__init__` (source lines 43–49) for particle count `k + 1`.  The
pair `(energies, M)` is the output of `numpy.linalg.eigh(H)` (an external
library call, modelled as data); the remaining fields are computed from it
exactly as in the source. -/
def Model.init (k : ℕ) (energies : Fin (2 ^ (k + 1)) → ℝ)
    (M : Matrix (Fin (2 ^ (k + 1))) (Fin (2 ^ (k + 1))) ℂ) : Model k where
  energies := energies
  M := M
  transition_amplitude_matrix := fun i j =>
    (2 * Complex.abs ((adj M * tp sigma_x k * M) i j) ^ 2
      + Complex.abs ((adj M * tp sigma_z k * M) i j) ^ 2) / 3 / 2 ^ (k + 1)
  rounded_frequencies := fun i => round (energies i / hbar)

/-- The local `frequency_matrix` of `Model.polarisation` (source line 92):
entry `(i, j)` is `|energies[i] - energies[j]| / hbar`. -/
def Model.frequency_matrix {k : ℕ} (m : Model k) :
    Matrix (Fin (2 ^ (k + 1))) (Fin (2 ^ (k + 1))) ℝ :=
  fun i j => |m.energies i - m.energies j| / hbar

/-- The method `Model.polarisation` (source lines 90–96), at a single time point. -/
def Model.polarisation {k : ℕ} (m : Model k) (t : ℝ) : ℝ :=
  ∑ i, ∑ j, m.transition_amplitude_matrix i j * Real.cos (m.frequency_matrix i j * t)

/-- The recomputation `rounded_frequencies = np.round(self.energies / hbar)`
inside `Model.plot_energy_levels` (source line 118). -/
def Model.plot_rounded_frequencies {k : ℕ} (m : Model k) : Fin (2 ^ (k + 1)) → ℤ :=
  fun i => round (m.energies i / hbar)

/-- The `transitions` set built by the loop at source lines 120–129: for every
ordered pair `(i, j)` with amplitude above `1e-8`, the pair of rounded
frequencies is swapped into increasing order and added when its two components
differ. -/
def Model.transitions {k : ℕ} (m : Model k) : Set (ℤ × ℤ) :=
  {p | ∃ i j, m.transition_amplitude_matrix i j > 1e-8 ∧
    m.plot_rounded_frequencies i ≠ m.plot_rounded_frequencies j ∧
    p = (min (m.plot_rounded_frequencies i) (m.plot_rounded_frequencies j),
         max (m.plot_rounded_frequencies i) (m.plot_rounded_frequencies j))}

/-- Whether the nested-list argument passed to `numpy.linalg.eigh` is a square
2-D array.  Modelled from numpy semantics: `eigh` raises `LinAlgError` unless
the last two dimensions of its argument are square. -/
def eighInputSquare (rows : List (List ℂ)) : Bool :=
  rows.all fun r => r.length == rows.length

/-- Whether `Model.__init__(H, particle_count)` (source lines 43–49) runs
without raising.  Modelled from the library semantics of the two fallible
operations the constructor performs: `numpy.linalg.eigh` raises unless its
argument is square (it does NOT check Hermiticity — it reads only one triangle
of its input), and the `@` matrix products at lines 46–47 raise `ValueError`
unless the dimension of `H` equals the dimension of
`tp(sigma_x, *[I]*(particle_count-1))`.  That dimension is
`2 ^ max particle_count 1`, not `2 ^ particle_count`: at particle count 0 the
Python list `[I]*(-1)` is empty, so `tp(sigma_x)` is the bare 2×2 `sigma_x`
(the denominator `2**particle_count` is `1` and never fails). -/
def modelInitSucceeds (rows : List (List ℂ)) (particle_count : ℕ) : Bool :=
  eighInputSquare rows && (rows.length == 2 ^ max particle_count 1)

/-- Entry `(i, j)` of a nested-list matrix (`0` when out of range). -/
def entryD (rows : List (List ℂ)) (i j : ℕ) : ℂ := (rows.getD i []).getD j 0

/-- Modelled from the spec: `Hermitian within numerical tolerance` for a
square nested-list matrix — every entry differs from the conjugate of its
transpose entry by at most `tol`. -/
def hermitianWithin (tol : ℝ) (rows : List (List ℂ)) : Prop :=
  ∀ i j : ℕ, Complex.abs (entryD rows i j - (starRingEnd ℂ) (entryD rows j i)) ≤ tol

/-- Source line 65: `particle_count = int(np.log2(len(self.energies)))`.
For a positive integer `N`, `int(np.log2(N))` truncates the float logarithm
toward zero, i.e. computes `⌊log₂ N⌋ = Nat.log2 N`. -/
def inferredParticleCount (N : ℕ) : ℕ := Nat.log2 N

/-- The transition-amplitude formula as the spec states it: `TX`/`TZ` is the
single-particle operator acting on the first particle only, expressed in the
full `2 ^ (k + 1)`-dimensional space.  In index form, the first tensor factor
selects the most significant part `i / 2 ^ k` of the index and the remaining
`k` identity factors force the residues `i % 2 ^ k` to agree. -/
def singleParticleFirst (X : Matrix (Fin 2) (Fin 2) ℂ) (k : ℕ) :
    Matrix (Fin (2 ^ (k + 1))) (Fin (2 ^ (k + 1))) ℂ :=
  fun i j =>
    X ⟨i.val / 2 ^ k,
        Nat.div_lt_of_lt_mul (lt_of_lt_of_le i.isLt (le_of_eq (pow_succ 2 k)))⟩
      ⟨j.val / 2 ^ k,
        Nat.div_lt_of_lt_mul (lt_of_lt_of_le j.isLt (le_of_eq (pow_succ 2 k)))⟩ *
      (if i.val % 2 ^ k = j.val % 2 ^ k then 1 else 0)

lemma I_eq_one : I = (1 : Matrix (Fin 2) (Fin 2) ℂ) := by
  ext a b
  fin_cases a <;> fin_cases b <;> simp [I]

lemma kronF_conjTranspose {a c : ℕ} (A : Matrix (Fin a) (Fin a) ℂ)
    (B : Matrix (Fin c) (Fin c) ℂ) : (kronF A B)ᴴ = kronF Aᴴ Bᴴ := by
  ext i j
  simp [kronF, conjTranspose_apply, star_mul']

lemma sigma_x_hermitian : sigma_xᴴ = sigma_x := by
  ext a b
  fin_cases a <;> fin_cases b <;> simp [sigma_x, conjTranspose_apply]

lemma sigma_z_hermitian : sigma_zᴴ = sigma_z := by
  ext a b
  fin_cases a <;> fin_cases b <;> simp [sigma_z, conjTranspose_apply]

lemma S_hermitian (i : Fin 3) : (S i)ᴴ = S i := by
  rw [S, conjTranspose_smul, Complex.star_def, Complex.conj_ofReal]
  congr 1
  fin_cases i <;>
    · ext a b
      fin_cases a <;> fin_cases b <;>
        simp [conjTranspose_apply, Complex.conj_I]

lemma X_apply_congr (X : Matrix (Fin 2) (Fin 2) ℂ) {n m n2 m2 : ℕ} {p : n < 2}
    {q : m < 2} {p2 : n2 < 2} {q2 : m2 < 2} (hn : n = n2) (hm : m = m2) :
    X ⟨n, p⟩ ⟨m, q⟩ = X ⟨n2, p2⟩ ⟨m2, q2⟩ := by
  subst hn
  subst hm
  rfl

lemma tp_eq_singleParticleFirst (X : Matrix (Fin 2) (Fin 2) ℂ) (k : ℕ) :
    tp X k = singleParticleFirst X k := by
  induction k with
  | zero =>
    ext i j
    show X i j = singleParticleFirst X 0 i j
    unfold singleParticleFirst
    simp [Nat.mod_one, Nat.div_one]
  | succ k ih =>
    ext i j
    show mcast _ _ (kronF (tp X k) I) i j = singleParticleFirst X (k + 1) i j
    rw [ih]
    simp only [mcast, kronF, I_eq_one, Matrix.one_apply, singleParticleFirst,
      Fin.coe_cast, Fin.mk.injEq]
    have hdi : i.val / 2 / 2 ^ k = i.val / 2 ^ (k + 1) := by
      rw [Nat.div_div_eq_div_mul, ← pow_succ']
    have hdj : j.val / 2 / 2 ^ k = j.val / 2 ^ (k + 1) := by
      rw [Nat.div_div_eq_div_mul, ← pow_succ']
    have e1 : ∀ n : ℕ, n / 2 % 2 ^ k = n % 2 ^ (k + 1) / 2 := fun n => by
      rw [← Nat.mod_mul_right_div_self, ← pow_succ']
    have e2 : ∀ n : ℕ, n % 2 = n % 2 ^ (k + 1) % 2 := fun n =>
      (Nat.mod_mod_of_dvd n (dvd_pow_self 2 (Nat.succ_ne_zero k))).symm
    by_cases hc : i.val % 2 ^ (k + 1) = j.val % 2 ^ (k + 1)
    · have h1 : i.val / 2 % 2 ^ k = j.val / 2 % 2 ^ k := by
        rw [e1 i.val, e1 j.val, hc]
      have h2 : i.val % 2 = j.val % 2 := by
        rw [e2 i.val, e2 j.val, hc]
      rw [if_pos h1, if_pos h2, if_pos hc, mul_one, mul_one, mul_one]
      exact X_apply_congr X hdi hdj
    · have hsplit : ¬(i.val / 2 % 2 ^ k = j.val / 2 % 2 ^ k ∧ i.val % 2 = j.val % 2) := by
        rintro ⟨h1, h2⟩
        rw [e1 i.val, e1 j.val] at h1
        rw [e2 i.val, e2 j.val] at h2
        omega
      rcases not_and_or.mp hsplit with h | h
      · rw [if_neg h, if_neg hc, mul_zero, zero_mul, mul_zero]
      · rw [if_neg h, if_neg hc, mul_zero, mul_zero]

lemma singleParticleFirst_conjTranspose (X : Matrix (Fin 2) (Fin 2) ℂ) (k : ℕ) :
    (singleParticleFirst X k)ᴴ = singleParticleFirst Xᴴ k := by
  ext i j
  by_cases h : i.val % 2 ^ k = j.val % 2 ^ k
  · simp only [conjTranspose_apply, singleParticleFirst]
    rw [if_pos h.symm, if_pos h, mul_one, mul_one]
  · have h' : ¬(j.val % 2 ^ k = i.val % 2 ^ k) := fun hh => h hh.symm
    simp only [conjTranspose_apply, singleParticleFirst]
    rw [if_neg h', if_neg h, mul_zero, mul_zero, star_zero]

lemma tp_hermitian (X : Matrix (Fin 2) (Fin 2) ℂ) (hX : Xᴴ = X) (k : ℕ) :
    (tp X k)ᴴ = tp X k := by
  rw [tp_eq_singleParticleFirst, singleParticleFirst_conjTranspose, hX]

/-- C1: For every model constructed from an eigendecomposition `(energies, M)`
of a Hamiltonian with particle count `n = k + 1`, the stored
transition-amplitude matrix equals `(2·|M†·TX·M|[i][j]² + |M†·TZ·M|[i][j]²) /
(3·2^n)` entrywise, where `TX` (resp. `TZ`) is the tensor product of `σx`
(resp. `σz`) with `n − 1` identities — the single-particle operator acting on
the first particle only, expressed in the full `2^n`-dimensional space. -/
theorem C1_transition_amplitude_matrix (k : ℕ) (energies : Fin (2 ^ (k + 1)) → ℝ)
    (M : Matrix (Fin (2 ^ (k + 1))) (Fin (2 ^ (k + 1))) ℂ) (i j : Fin (2 ^ (k + 1))) :
    (Model.init k energies M).transition_amplitude_matrix i j =
      (2 * Complex.abs ((Mᴴ * singleParticleFirst sigma_x k * M) i j) ^ 2
        + Complex.abs ((Mᴴ * singleParticleFirst sigma_z k * M) i j) ^ 2) /
        (3 * 2 ^ (k + 1)) := by
  show (2 * Complex.abs ((adj M * tp sigma_x k * M) i j) ^ 2
      + Complex.abs ((adj M * tp sigma_z k * M) i j) ^ 2) / 3 / 2 ^ (k + 1) = _
  rw [tp_eq_singleParticleFirst, tp_eq_singleParticleFirst, div_div]
  rfl

/-- C2: The Hamiltonian built by the builder formula at source lines 160–163,
with real coefficient `C` and Hermitian single-spin operators `S`, is
Hermitian: `H = H†`. -/
theorem C2_hamiltonian_hermitian : H.IsHermitian := by
  have hI : Iᴴ = I := by rw [I_eq_one, conjTranspose_one]
  have h3 : ∀ A B Cm : Matrix (Fin 2) (Fin 2) ℂ,
      Aᴴ = A → Bᴴ = B → Cmᴴ = Cm → (tp3 A B Cm)ᴴ = tp3 A B Cm := by
    intro A B Cm hA hB hCm
    unfold tp3
    rw [kronF_conjTranspose, kronF_conjTranspose, hA, hB, hCm]
  have t1 : ∀ i : Fin 3, (tp3 (S i) (S i) I)ᴴ = tp3 (S i) (S i) I := fun i =>
    h3 _ _ _ (S_hermitian i) (S_hermitian i) hI
  have t2 : ∀ i : Fin 3, (tp3 (S i) I (S i))ᴴ = tp3 (S i) I (S i) := fun i =>
    h3 _ _ _ (S_hermitian i) hI (S_hermitian i)
  show Hᴴ = H
  unfold H
  simp only [conjTranspose_smul, conjTranspose_sub, conjTranspose_add,
    conjTranspose_sum, t1, t2, Complex.star_def, Complex.conj_ofReal, map_ofNat]

/-- C3: For every model and time `t`, the polarisation equals the double sum
over all N² ordered pairs (i, j), including i = j, of
`A[i][j]·cos(ω[i][j]·t)` with `ω[i][j] = |energies[i] − energies[j]| / ħ`;
each diagonal term contributes the constant `A[i][i]`. -/
theorem C3_polarisation_formula {k : ℕ} (m : Model k) (t : ℝ) :
    m.polarisation t =
      (∑ i, ∑ j, m.transition_amplitude_matrix i j *
        Real.cos (|m.energies i - m.energies j| / hbar * t)) ∧
    ∀ i, m.transition_amplitude_matrix i i *
        Real.cos (|m.energies i - m.energies i| / hbar * t) =
      m.transition_amplitude_matrix i i := by
  constructor
  · rfl
  · intro i
    simp [sub_self, abs_zero, zero_div, zero_mul, Real.cos_zero, mul_one]

/-- C5: For every model constructed from an eigendecomposition `(energies, M)`,
the (real-valued) transition-amplitude matrix is symmetric and entrywise
nonnegative. -/
theorem C5_amplitude_symmetric_nonneg (k : ℕ) (energies : Fin (2 ^ (k + 1)) → ℝ)
    (M : Matrix (Fin (2 ^ (k + 1))) (Fin (2 ^ (k + 1))) ℂ) (i j : Fin (2 ^ (k + 1))) :
    (Model.init k energies M).transition_amplitude_matrix i j =
      (Model.init k energies M).transition_amplitude_matrix j i ∧
    0 ≤ (Model.init k energies M).transition_amplitude_matrix i j := by
  have key : ∀ X : Matrix (Fin 2) (Fin 2) ℂ, Xᴴ = X →
      Complex.abs ((adj M * tp X k * M) j i) = Complex.abs ((adj M * tp X k * M) i j) := by
    intro X hX
    have hH : (adj M * tp X k * M)ᴴ = adj M * tp X k * M := by
      simp only [adj]
      rw [conjTranspose_mul, conjTranspose_mul, conjTranspose_conjTranspose,
        tp_hermitian X hX k, Matrix.mul_assoc]
    have hsym : (adj M * tp X k * M) i j = star ((adj M * tp X k * M) j i) := by
      conv_lhs => rw [← hH]
      rw [conjTranspose_apply]
    rw [hsym, Complex.star_def, Complex.abs_conj]
  constructor
  · show (2 * Complex.abs ((adj M * tp sigma_x k * M) i j) ^ 2
        + Complex.abs ((adj M * tp sigma_z k * M) i j) ^ 2) / 3 / 2 ^ (k + 1)
      = (2 * Complex.abs ((adj M * tp sigma_x k * M) j i) ^ 2
        + Complex.abs ((adj M * tp sigma_z k * M) j i) ^ 2) / 3 / 2 ^ (k + 1)
    rw [key sigma_x sigma_x_hermitian, key sigma_z sigma_z_hermitian]
  · show (0 : ℝ) ≤ (2 * Complex.abs ((adj M * tp sigma_x k * M) i j) ^ 2
        + Complex.abs ((adj M * tp sigma_z k * M) i j) ^ 2) / 3 / 2 ^ (k + 1)
    positivity

/-- C6: For every model, the polarisation at time `t = 0` equals the sum of
all entries of the transition-amplitude matrix (exactly, in the real-number
model of floating point). -/
theorem C6_polarisation_at_zero {k : ℕ} (m : Model k) :
    m.polarisation 0 = ∑ i, ∑ j, m.transition_amplitude_matrix i j := by
  unfold Model.polarisation
  simp [mul_zero, Real.cos_zero, mul_one]

/-- C7: For every model and every real time `t`, the polarisation is even in
time: `D(t) = D(−t)`. -/
theorem C7_polarisation_even {k : ℕ} (m : Model k) (t : ℝ) :
    m.polarisation t = m.polarisation (-t) := by
  unfold Model.polarisation
  simp [mul_neg, Real.cos_neg]

/-- C9: Every pair in the extracted transition set has strictly increasing
components (`a < b`, never `a = b`), and arises from some eigenstate pair
`(i, j)` whose amplitude exceeds the fixed `1e-8` significance threshold. -/
theorem C9_transition_pairs {k : ℕ} (m : Model k) (p : ℤ × ℤ)
    (hp : p ∈ m.transitions) :
    p.1 < p.2 ∧ ∃ i j, m.transition_amplitude_matrix i j > 1e-8 ∧
      p.1 = min (m.plot_rounded_frequencies i) (m.plot_rounded_frequencies j) ∧
      p.2 = max (m.plot_rounded_frequencies i) (m.plot_rounded_frequencies j) := by
  obtain ⟨i, j, hA, hne, hpe⟩ := hp
  subst hpe
  exact ⟨min_lt_max.mpr hne, i, j, hA, rfl, rfl⟩

/-- C10: The rounded-frequencies sequence stored at construction time equals
the sequence recomputed inside the energy-level diagnostics: both are
`round(energies[i] / ħ)` over the same stored energies. -/
theorem C10_rounded_frequencies_agree (k : ℕ) (energies : Fin (2 ^ (k + 1)) → ℝ)
    (M : Matrix (Fin (2 ^ (k + 1))) (Fin (2 ^ (k + 1))) ℂ) :
    (Model.init k energies M).rounded_frequencies =
      (Model.init k energies M).plot_rounded_frequencies := rfl

/-- C9 (witness): the concrete model with particle count 1, energies
`(0, ħ)` and identity eigenvector matrix has the transition pair `(0, 1)`
in its extracted set, and the conclusion of the theorem holds for it. -/
theorem C9_transition_pairs_witness :
    ((0 : ℤ), (1 : ℤ)).1 < ((0 : ℤ), (1 : ℤ)).2 ∧
    ∃ i j, (Model.init 0 ![0, hbar] 1).transition_amplitude_matrix i j > 1e-8 ∧
      ((0 : ℤ), (1 : ℤ)).1 = min ((Model.init 0 ![0, hbar] 1).plot_rounded_frequencies i)
        ((Model.init 0 ![0, hbar] 1).plot_rounded_frequencies j) ∧
      ((0 : ℤ), (1 : ℤ)).2 = max ((Model.init 0 ![0, hbar] 1).plot_rounded_frequencies i)
        ((Model.init 0 ![0, hbar] 1).plot_rounded_frequencies j) := by
  have hbar_ne : hbar ≠ 0 := by norm_num [hbar]
  have rf0 : (Model.init 0 ![0, hbar] 1).plot_rounded_frequencies 0 = 0 := by
    simp [Model.plot_rounded_frequencies, Model.init]
  have rf1 : (Model.init 0 ![0, hbar] 1).plot_rounded_frequencies 1 = 1 := by
    simp [Model.plot_rounded_frequencies, Model.init, div_self hbar_ne]
  have hA : (Model.init 0 ![0, hbar] 1).transition_amplitude_matrix 0 1 > 1e-8 := by
    norm_num [Model.init, adj, tp, sigma_x, sigma_z, Matrix.conjTranspose_one,
      Matrix.one_mul, Matrix.mul_one]
  exact C9_transition_pairs (Model.init 0 ![0, hbar] 1) (0, 1)
    ⟨0, 1, hA, by rw [rf0, rf1]; decide, by rw [rf0, rf1]; decide⟩

/-- C4 (counterexample): the square but non-Hermitian matrix `[[0,1],[0,0]]`
is accepted by the constructor without error — `numpy.linalg.eigh` never
checks Hermiticity — refuting the claim that a non-Hermitian input fails. -/
theorem C4_counterexample :
    modelInitSucceeds [[0, 1], [0, 0]] 1 = true ∧
    ¬ hermitianWithin 1e-8 [[0, 1], [0, 0]] := by
  constructor
  · decide
  · intro h
    have h01 := h 0 1
    norm_num [hermitianWithin, entryD] at h01

/-- C4 (amended): construction fails when the supplied matrix is not square
(and also when its dimension does not match `2 ^ max particle_count 1`, the
dimension of `tp(sigma_x, *[I]*(particle_count-1))`), but Hermiticity is never
checked: every square matrix of matching dimension is accepted, Hermitian or
not. -/
theorem C4_construction_checks (rows : List (List ℂ)) (n : ℕ) :
    (eighInputSquare rows = false → modelInitSucceeds rows n = false) ∧
    (eighInputSquare rows = true → rows.length = 2 ^ max n 1 →
      modelInitSucceeds rows n = true) := by
  constructor
  · intro h
    simp [modelInitSucceeds, h]
  · intro h hl
    simp [modelInitSucceeds, h, hl]

/-- C4 (witness): a non-square 1×2 matrix is rejected; the square
non-Hermitian matrix `[[0,1],[0,0]]` is accepted at particle count 1. -/
theorem C4_construction_checks_witness :
    modelInitSucceeds [[1, 0]] 0 = false ∧
    modelInitSucceeds [[0, 1], [0, 0]] 1 = true :=
  ⟨(C4_construction_checks [[1, 0]] 0).1 (by decide),
   (C4_construction_checks [[0, 1], [0, 0]] 1).2 (by decide) (by decide)⟩

/-- C8 (counterexample): at spectrum length `N = 3` (not a power of two) the
inference `int(np.log2(N))` silently returns `1` — it does not fail, and the
returned count does not satisfy `2 ^ n = N`. -/
theorem C8_counterexample :
    inferredParticleCount 3 = 1 ∧ (2 : ℕ) ^ inferredParticleCount 3 ≠ 3 := by
  have h : inferredParticleCount 3 = 1 := by
    show Nat.log2 3 = 1
    simp [Nat.log2]
  exact ⟨h, by rw [h]; decide⟩

/-- C8 (amended): model construction does fail whenever the matrix dimension
`N` differs from `2 ^ max particle_count 1` (for particle count ≥ 1 this is
exactly `N ≠ 2 ^ particle_count`; at particle count 0 the operator
`tp(sigma_x, *[I]*(-1))` is still 2×2, so dimension 2 is required); but when
the particle count is inferred from the spectrum length the code computes
`⌊log₂ N⌋` silently instead of failing — the inference is exact precisely on
powers of two. -/
theorem C8_dimension_and_inference :
    (∀ (rows : List (List ℂ)) (n : ℕ), rows.length ≠ 2 ^ max n 1 →
      modelInitSucceeds rows n = false) ∧
    (∀ N : ℕ, 0 < N →
      2 ^ inferredParticleCount N ≤ N ∧ N < 2 ^ (inferredParticleCount N + 1)) ∧
    (∀ n : ℕ, inferredParticleCount (2 ^ n) = n) := by
  refine ⟨?_, ?_, ?_⟩
  · intro rows n h
    simp [modelInitSucceeds, h]
  · intro N hN
    exact ⟨Nat.log2_self_le (Nat.pos_iff_ne_zero.mp hN), Nat.lt_log2_self⟩
  · intro n
    have h1 : 2 ^ inferredParticleCount (2 ^ n) ≤ 2 ^ n :=
      Nat.log2_self_le (Nat.pos_iff_ne_zero.mp (Nat.pos_pow_of_pos n (by norm_num)))
    have h2 : (2 : ℕ) ^ n < 2 ^ (inferredParticleCount (2 ^ n) + 1) := Nat.lt_log2_self
    have l1 : inferredParticleCount (2 ^ n) ≤ n :=
      (Nat.pow_le_pow_iff_right (by norm_num)).mp h1
    have l2 : n < inferredParticleCount (2 ^ n) + 1 :=
      (Nat.pow_lt_pow_iff_right (by norm_num)).mp h2
    omega

/-- C8 (witness): a 1×1 matrix with particle count 0 is rejected (the 2×2
operator `tp(sigma_x)` forces dimension `2 = 2^max(0,1)`); the floor-log
inference brackets `N = 5` between `4` and `8`; and it recovers the exponent
exactly at `N = 8`. -/
theorem C8_dimension_and_inference_witness :
    modelInitSucceeds [[1]] 0 = false ∧
    (2 ^ inferredParticleCount 5 ≤ 5 ∧ 5 < 2 ^ (inferredParticleCount 5 + 1)) ∧
    inferredParticleCount 8 = 3 :=
  ⟨C8_dimension_and_inference.1 [[1]] 0 (by decide),
   C8_dimension_and_inference.2.1 5 (by norm_num),
   C8_dimension_and_inference.2.2 3⟩

end
